import Mathlib

/-!
Verification of the query compiler, matching engine, classification engine
and template compiler of `tap.py` (an apt package search tool).

The Python source is shallowly embedded: each duck-typed matcher class
(`MatchName`, `MatchDesc`, `Installed`, `Nonvirtual`, `MatchArch`,
`AndCombiner`, `OrCombiner`) becomes a constructor of the closed inductive
type `Matcher`, with one dispatch function per operation (`Matcher.matchPkg`
for `match`, `Matcher.filter` for `filter`).  Python's `sorted` is a stable
sort by a key function; it is embedded as insertion sort by the same total
preorder (stable sorts by the same preorder agree on every input).  Python
string comparison is lexicographic by code point, embedded as `listLtChar`
on the character lists.  `apt` version objects compare equal exactly when
their version strings compare equal, so `package.installed == version`
is embedded as equality of the stored version strings.
-/

namespace Tap

/-- The per-package attributes reachable from a version through
`version.package` in the source: name, the installed/candidate version
strings (`none` when the package has no installed/candidate version), the
flags and the dpkg status codes used by the classification engine. -/
structure PkgAttrs where
  name : String
  installedVer : Option String
  candidateVer : Option String
  isNowBroken : Bool
  isAutoInstalled : Bool
  isAutoRemovable : Bool
  isUpgradable : Bool
  currentState : Nat
  selectedState : Nat
deriving DecidableEq

/-- One version of a package: `pkg` is the owning package's attribute record
(the source's `version.package` back reference). -/
structure Version where
  pkg : PkgAttrs
  verStr : String
  architecture : String
  provides : List String
  longDesc : String
  summary : String
deriving DecidableEq

/-- A package as iterated from the cache: its attributes, its version list
and its installed version object (`None` in the source when absent). -/
structure Package where
  attrs : PkgAttrs
  versions : List Version
  installed : Option Version
deriving DecidableEq

/-- A match result: `(displayed name, version)` as in the source. -/
abbrev Match := String × Version

/-- The sort key of `namever_key`:
`(item[0], item[1].package.name, item[1].version)`. -/
abbrev Key := String × String × String

/-- `namever_key(item)` from the source. -/
def namever_key (item : Match) : Key :=
  (item.1, item.2.pkg.name, item.2.verStr)

/-- Code-point lexicographic strict order on character lists: the order
Python uses to compare strings. -/
def listLtChar : List Char → List Char → Bool
  | [], [] => false
  | [], _ :: _ => true
  | _ :: _, [] => false
  | a :: as, b :: bs =>
    if a.toNat < b.toNat then true
    else if b.toNat < a.toNat then false
    else listLtChar as bs

/-- Python `s < t` on strings. -/
def strLtB (s t : String) : Bool := listLtChar s.toList t.toList

/-- Python tuple comparison `a <= b` on sort keys (lexicographic on the
three string components). -/
def keyLe (a b : Key) : Bool :=
  strLtB a.1 b.1 ||
    (a.1 == b.1 &&
      (strLtB a.2.1 b.2.1 ||
        (a.2.1 == b.2.1 && (strLtB a.2.2 b.2.2 || a.2.2 == b.2.2))))

/-- Strict version of `keyLe`. -/
def keyLt (a b : Key) : Bool :=
  strLtB a.1 b.1 ||
    (a.1 == b.1 &&
      (strLtB a.2.1 b.2.1 || (a.2.1 == b.2.1 && strLtB a.2.2 b.2.2)))

/-- The preorder `sorted(key=namever_key)` sorts by. -/
def matchLE (a b : Match) : Prop := keyLe (namever_key a) (namever_key b) = true

instance : DecidableRel matchLE := fun _ _ => inferInstanceAs (Decidable (_ = true))

/-- Python's `sorted(results, key=namever_key)`: a stable sort by
`matchLE` (insertion sort is stable, as is Python's sort). -/
def sortByKey (l : List Match) : List Match := List.insertionSort matchLE l

/-- Helper for the duplicate filter of `OrCombiner._combine`: drop every
element whose key equals the key of the element immediately before it. -/
def dedupAdjAux (prev : Match) : List Match → List Match
  | [] => []
  | x :: xs =>
    if namever_key x = namever_key prev then dedupAdjAux x xs
    else x :: dedupAdjAux x xs

/-- `[merged[i] for i in range(len(merged)) if i == 0 or keys[i] != keys[i-1]]`
from `OrCombiner._combine`. -/
def dedupAdj : List Match → List Match
  | [] => []
  | x :: xs => x :: dedupAdjAux x xs

/-- `OrCombiner._combine`: concatenate, stable-sort by the key, drop
adjacent duplicate keys keeping the first occurrence. -/
def combine (left right : List Match) : List Match :=
  dedupAdj (sortByKey (left ++ right))

/-- `Contains`: case-sensitive substring predicate. -/
def Contains (search : String) : String → Bool :=
  fun target => decide (search.toList <:+: target.toList)

/-- Per-character lower casing (Python lowercases the whole string; the
difference is immaterial here). -/
def lowerChars (s : String) : List Char := s.toList.map Char.toLower

/-- `ContainsNoCase`: case-insensitive substring predicate. -/
def ContainsNoCase (search : String) : String → Bool :=
  fun target => decide (lowerChars search <:+: lowerChars target)

/-- The closed variant type of matcher nodes, one constructor per
duck-typed matcher class of the source. -/
inductive Matcher where
  | MatchName (matcher : String → Bool)
  | MatchDesc (matcher : String → Bool)
  | Installed
  | Nonvirtual
  | MatchArch (arch : List String)
  | AndCombiner (left right : Matcher)
  | OrCombiner (left right : Matcher)

/-- The `filter` operation of every matcher class. -/
def Matcher.filter : Matcher → List Match → List Match
  | .MatchName m, results => results.filter fun r => m r.1
  | .MatchDesc m, results => results.filter fun r => m r.2.longDesc
  | .Installed, results =>
    results.filter fun r =>
      r.2.pkg.name == r.1 && r.2.pkg.installedVer == some r.2.verStr
  | .Nonvirtual, results => results.filter fun r => r.1 == r.2.pkg.name
  | .MatchArch arch, results =>
    results.filter fun r => arch.contains r.2.architecture
  | .AndCombiner l r, results =>
    let results := l.filter results
    if results.isEmpty then [] else r.filter results
  | .OrCombiner l r, results => combine (l.filter results) (r.filter results)

/-- The `match` operation of every matcher class (`match` is a Lean
keyword, hence `matchPkg`). -/
def Matcher.matchPkg : Matcher → Package → List Match
  | .MatchName m, package =>
    sortByKey
      ((package.versions.flatMap fun v =>
          (v.provides.filter m).map fun pr => (pr, v)) ++
        (if m package.attrs.name then
          package.versions.map fun v => (package.attrs.name, v)
        else []))
  | .MatchDesc m, package =>
    sortByKey
      (package.versions.flatMap fun v =>
        if m v.longDesc then
          (v.provides.map fun pr => (pr, v)) ++ [(package.attrs.name, v)]
        else [])
  | .Installed, package =>
    match package.installed with
    | some iv => [(package.attrs.name, iv)]
    | none => []
  | .Nonvirtual, package =>
    package.versions.map fun v => (package.attrs.name, v)
  | .MatchArch arch, package =>
    package.versions.flatMap fun v =>
      if arch.contains v.architecture then
        (v.provides.map fun pr => (pr, v)) ++ [(package.attrs.name, v)]
      else []
  | .AndCombiner l r, package =>
    let results := l.matchPkg package
    if results.isEmpty then [] else r.filter results
  | .OrCombiner l r, package =>
    combine (l.matchPkg package) (r.matchPkg package)

/-- The atomic (non-combinator) matchers. -/
def Matcher.Atomic : Matcher → Bool
  | .MatchName _ => true
  | .MatchDesc _ => true
  | .Installed => true
  | .Nonvirtual => true
  | .MatchArch _ => true
  | .AndCombiner _ _ => false
  | .OrCombiner _ _ => false

/-- Every `(displayed name, version)` pair any matcher could produce for
one package: for each version, one pair per provided name plus the pair
under the package's own name. -/
def allMatchesPkg (p : Package) : List Match :=
  p.versions.flatMap fun v =>
    (v.provides.map fun pr => (pr, v)) ++ [(p.attrs.name, v)]

/-- All possible matches of a package set. -/
def allMatches (ps : List Package) : List Match := ps.flatMap allMatchesPkg

/-- The raw results of evaluating a matcher against every package of a
package set (before the top-level sort). -/
def matchAll (m : Matcher) (ps : List Package) : List Match :=
  ps.flatMap m.matchPkg

/-- `sorted(itertools.chain(*[cond.match(p) for p in cache]), key=namever_key)`
from `search`. -/
def searchResults (m : Matcher) (ps : List Package) : List Match :=
  sortByKey (matchAll m ps)

/-- Well-formedness of a package as `apt` hands it to the tool: every
version's back reference is the package's own attribute record, version
strings identify versions uniquely within the package, and the installed
version object agrees with the installed version string and is one of the
package's versions. -/
def Package.WF (p : Package) : Prop :=
  (∀ v ∈ p.versions, v.pkg = p.attrs) ∧
  (∀ v ∈ p.versions, ∀ w ∈ p.versions, v.verStr = w.verStr → v = w) ∧
  p.attrs.installedVer = p.installed.map Version.verStr ∧
  p.installed.all (fun iv => p.versions.contains iv) = true

/-- `apt_pkg.CURSTATE_UNPACKED`. -/
def CURSTATE_UNPACKED : Nat := 1

/-- `apt_pkg.CURSTATE_HALF_CONFIGURED`. -/
def CURSTATE_HALF_CONFIGURED : Nat := 2

/-- `apt_pkg.CURSTATE_HALF_INSTALLED`. -/
def CURSTATE_HALF_INSTALLED : Nat := 4

/-- `apt_pkg.CURSTATE_CONFIG_FILES`. -/
def CURSTATE_CONFIG_FILES : Nat := 5

/-- `apt_pkg.CURSTATE_INSTALLED`. -/
def CURSTATE_INSTALLED : Nat := 6

/-- `apt_pkg.SELSTATE_UNKNOWN`. -/
def SELSTATE_UNKNOWN : Nat := 0

/-- `apt_pkg.SELSTATE_INSTALL`. -/
def SELSTATE_INSTALL : Nat := 1

/-- `apt_pkg.SELSTATE_HOLD`. -/
def SELSTATE_HOLD : Nat := 2

/-- `apt_pkg.SELSTATE_DEINSTALL`. -/
def SELSTATE_DEINSTALL : Nat := 3

/-- `apt_pkg.SELSTATE_PURGE`. -/
def SELSTATE_PURGE : Nat := 4

/-- The display fields the classification engine computes per result. -/
structure Classified where
  state : Char
  automatic : Char
  select : Char
  upgrade : Char
  installed : Bool
deriving DecidableEq

/-- The per-result classification block of `search` (lines 313-365 of the
source): `package = version.package`; state/installed, automatic, select
and upgrade flags.  The Python dict lookups with `.get` defaults become
if-chains with the same default branch. -/
def classify (name : String) (version : Version) : Classified :=
  let package := version.pkg
  let virtual := package.name != name
  let stateInstalled : Bool × Char :=
    if virtual then (false, 'v')
    else if package.installedVer == some version.verStr then
      (true,
        if package.isNowBroken then 'b'
        else if package.currentState == CURSTATE_CONFIG_FILES then 'c'
        else if package.currentState == CURSTATE_HALF_CONFIGURED then 'C'
        else if package.currentState == CURSTATE_HALF_INSTALLED then 'I'
        else if package.currentState == CURSTATE_UNPACKED then 'z'
        else if package.currentState == CURSTATE_INSTALLED then 'i'
        else '?')
    else if package.installedVer == none && package.candidateVer == some version.verStr then
      (true,
        if package.currentState == CURSTATE_CONFIG_FILES then 'c'
        else if package.currentState == CURSTATE_HALF_CONFIGURED then 'C'
        else if package.currentState == CURSTATE_HALF_INSTALLED then 'I'
        else if package.currentState == CURSTATE_UNPACKED then 'z'
        else 'p')
    else (false, 'p')
  let installed := stateInstalled.1
  let automatic :=
    if installed then
      if package.isAutoInstalled && package.isAutoRemovable then 'R'
      else if package.isAutoInstalled && !package.isAutoRemovable then 'A'
      else if !package.isAutoInstalled && !package.isAutoRemovable then ' '
      else '?'
    else ' '
  let select :=
    if (package.installedVer.isSome && package.installedVer == some version.verStr)
        || (!package.installedVer.isSome && package.candidateVer == some version.verStr) then
      if package.selectedState == SELSTATE_INSTALL then 'i'
      else if package.selectedState == SELSTATE_DEINSTALL then 'd'
      else if package.selectedState == SELSTATE_HOLD then 'h'
      else if package.selectedState == SELSTATE_PURGE then 'p'
      else if package.selectedState == SELSTATE_UNKNOWN then '?'
      else ' '
    else ' '
  let upgrade := if installed && package.isUpgradable then 'u' else ' '
  ⟨stateInstalled.2, automatic, select, upgrade, installed⟩

/-- Python `s.find(c)` as an option (the source compares against `-1`). -/
def findChar (c : Char) : List Char → Option Nat
  | [] => none
  | x :: xs => if x = c then some 0 else (findChar c xs).map (· + 1)

/-- One splitting step of `make_search`: for `op` in `'nda'` cut `rem` at
the next `'~'` (`rem, arg = rem[:nextop], rem[nextop:]`, or `arg = ""`
when there is none); otherwise `rem, arg = "", rem`. -/
def splitRem (o : Char) (rem0 : List Char) : List Char × List Char :=
  if o = 'n' ∨ o = 'd' ∨ o = 'a' then
    match findChar '~' rem0 with
    | some i => (rem0.take i, rem0.drop i)
    | none => (rem0, [])
  else ([], rem0)

/-- `MatchArch.__init__` applied to the clause text: an empty string is
falsy, so it yields the configured-default/`all` list; a nonempty string
yields the one-element list. -/
def MatchArchOfStr (d : String) (r : String) : Matcher :=
  if r = "" then .MatchArch [d, "all"] else .MatchArch [r]

/-- `MatchArch(None)`: the implicit default-architecture clause. -/
def MatchArchDefault (d : String) : Matcher := .MatchArch [d, "all"]

/-- The operator dispatch dict `{'n': ..., 'd': ..., 'i': ..., 'a': ...,
'p': ...}` of `make_search`; `none` models the `KeyError` on an unknown
operator character. -/
def clauseMatcher (d : String) (o : Char) (rem : List Char) : Option Matcher :=
  if o = 'n' then some (.MatchName (Contains (String.mk rem)))
  else if o = 'd' then some (.MatchDesc (ContainsNoCase (String.mk rem)))
  else if o = 'i' then some .Installed
  else if o = 'a' then some (MatchArchOfStr d (String.mk rem))
  else if o = 'p' then some .Nonvirtual
  else none

/-- The `while arg:` loop of `make_search`, accumulating the clause list
and the `has_arch` flag.  Errors model the uncaught Python exceptions:
`arg == "~"` raises `IndexError` on `arg[1]`, an unknown operator raises
`KeyError` on the dispatch dict. -/
def parseLoop (d : String) (arg : List Char) (conds : List Matcher)
    (hasArch : Bool) : Except String (List Matcher × Bool) :=
  match arg with
  | [] => .ok (conds, hasArch)
  | c :: cs =>
    if hc : c = '~' then
      match cs with
      | [] => .error "IndexError: string index out of range"
      | o :: rest =>
        if o = 'a' ∧ (splitRem o rest).1 = "any".toList then
          parseLoop d (splitRem o rest).2 conds true
        else
          match clauseMatcher d o (splitRem o rest).1 with
          | some m =>
            parseLoop d (splitRem o rest).2 (conds ++ [m])
              (hasArch || decide (o = 'a'))
          | none => .error "KeyError"
    else
      match clauseMatcher d 'n' (splitRem 'n' (c :: cs)).1 with
      | some m => parseLoop d (splitRem 'n' (c :: cs)).2 (conds ++ [m]) hasArch
      | none => .error "KeyError"
termination_by arg.length
decreasing_by
  · simp only [splitRem, List.length_cons]
    split
    · split
      · simp only [List.length_drop]; omega
      · simp only [List.length_nil]; omega
    · simp only []; omega
  · simp only [splitRem, List.length_cons]
    split
    · split
      · simp only [List.length_drop]; omega
      · simp only [List.length_nil]; omega
    · simp only []; omega
  · simp only [splitRem, findChar, if_neg hc, true_or, if_true, List.length_cons]
    split
    · next i heq =>
      rcases Option.map_eq_some'.mp heq with ⟨j, hj, rfl⟩
      simp only [List.drop_succ_cons, List.length_drop]
      omega
    · simp

/-- The result of compiling one pattern token: either a matcher object or
the bare `lambda pkg: []` the source returns for an empty clause list. -/
inductive SearchCond where
  | matcher (m : Matcher)
  | emptyFn

/-- Calling the compiled token on a package (`cond(pkg)` for the lambda,
`cond.match(pkg)` for a matcher). -/
def SearchCond.apply : SearchCond → Package → List Match
  | .matcher m, p => m.matchPkg p
  | .emptyFn, _ => []

/-- The right fold of `AndCombiner` over a nonempty clause list:
`cond = conds[-1]; while conds: cond = AndCombiner(conds.pop(), cond)`. -/
def foldAnd1 (c : Matcher) : List Matcher → Matcher
  | [] => c
  | x :: xs => .AndCombiner c (foldAnd1 x xs)

/-- `make_search`: parse one pattern token into clauses, append the
implicit default-architecture clause when no `~a` clause appeared, and
fold the clauses with `AndCombiner`. -/
def make_search (d : String) (arg : String) : Except String SearchCond :=
  match parseLoop d arg.toList [] false with
  | .error e => .error e
  | .ok (conds, hasArch) =>
    let conds :=
      if !conds.isEmpty && !hasArch then conds ++ [MatchArchDefault d]
      else conds
    match conds with
    | [] => .ok .emptyFn
    | c :: rest => .ok (.matcher (foldAnd1 c rest))

/-- The placeholder dispatch of `search_format`: the translated template
piece for field character `c`, or `none` for the
`Unkown format character` error.  Alignment is honored only for `n`, `v`
and `a`; the other known characters ignore the flag. -/
def fmtDispatch (align : Bool) (c : Char) : Option String :=
  if c = 'n' then some (if align then "%%(name)-%(namelen)ds" else "%%(name)s")
  else if c = 'v' then some (if align then "%%(version)-%(verlen)ds" else "%%(version)s")
  else if c = 'a' then some (if align then "%%(arch)-6s" else "%%(arch)s")
  else if c = 'p' then some "%%(packagename)s"
  else if c = 'd' then some "%%(summary)s"
  else if c = 's' then some "%%(state)s"
  else if c = 'A' then some "%%(automatic)s"
  else if c = 'u' then some "%%(upgrade)s"
  else none

/-- The `while fmtarg:` scan of `search_format`: copy literal text up to
the next `%`, read an optional `|` alignment flag and the field character,
append the translated piece.  Errors model the uncaught Python
exceptions: `fmtarg[0]` on an empty remainder raises `IndexError`, an
unknown field character raises the `Unkown format character` exception. -/
def compileFormatLoop (fmtarg : List Char) (acc : String) : Except String String :=
  match findChar '%' fmtarg with
  | none => .ok (acc ++ String.mk fmtarg)
  | some i =>
    match hr : fmtarg.drop (i + 1) with
    | [] => .error "IndexError: string index out of range"
    | c :: cs =>
      if c = '|' then
        match cs with
        | [] => .error "IndexError: string index out of range"
        | fc :: fs =>
          match fmtDispatch true fc with
          | some piece =>
            compileFormatLoop fs (acc ++ String.mk (fmtarg.take i) ++ piece)
          | none => .error ("Unkown format character " ++ String.mk [fc])
      else
        match fmtDispatch false c with
        | some piece =>
          compileFormatLoop cs (acc ++ String.mk (fmtarg.take i) ++ piece)
        | none => .error ("Unkown format character " ++ String.mk [c])
termination_by fmtarg.length
decreasing_by
  · have h1 : (fmtarg.drop (i + 1)).length = fmtarg.length - (i + 1) :=
      List.length_drop _ _
    rw [hr] at h1
    simp only [List.length_cons] at h1
    omega
  · have h1 : (fmtarg.drop (i + 1)).length = fmtarg.length - (i + 1) :=
      List.length_drop _ _
    rw [hr] at h1
    simp only [List.length_cons] at h1
    omega

/-- `search_format` applied to one format string argument (the
`config`/`argv` plumbing around the loop carries no logic). -/
def compileFormat (s : String) : Except String String :=
  compileFormatLoop s.toList ""

/-- Spec-shaped well-formedness of a format string, for the corrected
reading of the error-handling claim: the string is literal text without
`%`, or literal text without `%`, then `%`, an optional `|`, a field
character the dispatch knows (alignment flags on characters without an
aligned form are accepted and ignored), and a well-formed remainder. -/
inductive FmtGood : List Char → Prop where
  | lit (l : List Char) (h : '%' ∉ l) : FmtGood l
  | ph (pre : List Char) (hpre : '%' ∉ pre) (align : Bool) (c : Char)
      (rest : List Char) (hc : (fmtDispatch align c).isSome = true)
      (hrest : FmtGood rest) :
      FmtGood (pre ++ '%' :: ((if align then ['|'] else []) ++ c :: rest))

/-- Sortedness by the sort key, the spec's ordering requirement on result
sequences. -/
def sortedByKey (l : List Match) : Prop := List.Sorted matchLE l

/-- The selected-state mapping as the classification engine actually
implements it: the five dpkg selection codes map to
`i`/`d`/`h`/`p`/`?`, every other code to a blank. -/
def selSpec (s : Nat) : Char :=
  if s = SELSTATE_INSTALL then 'i'
  else if s = SELSTATE_DEINSTALL then 'd'
  else if s = SELSTATE_HOLD then 'h'
  else if s = SELSTATE_PURGE then 'p'
  else if s = SELSTATE_UNKNOWN then '?'
  else ' '

/-- Strict key order on matches. -/
def matchLT (a b : Match) : Prop := keyLt (namever_key a) (namever_key b) = true

/-- The sort key identifies elements of the list: the spec's assumption
that package name and version string uniquely identify a version. -/
def KeyInjOn (l : List Match) : Prop :=
  ∀ x ∈ l, ∀ y ∈ l, namever_key x = namever_key y → x = y

/-- Denotational satisfaction of a matcher by one candidate pair, read off
the filter predicates of the source; used to relate `filter` and `match`. -/
def SatP : Matcher → Match → Prop
  | .MatchName m, r => m r.1 = true
  | .MatchDesc m, r => m r.2.longDesc = true
  | .Installed, r => r.2.pkg.name = r.1 ∧ r.2.pkg.installedVer = some r.2.verStr
  | .Nonvirtual, r => r.1 = r.2.pkg.name
  | .MatchArch arch, r => arch.contains r.2.architecture = true
  | .AndCombiner l r', x => SatP l x ∧ SatP r' x
  | .OrCombiner l r', x => SatP l x ∨ SatP r' x

/-- Sample data: attributes of an installed, healthy package `pkg`. -/
def sAttrs : PkgAttrs :=
  ⟨"pkg", some "1.0", none, false, false, false, false, CURSTATE_INSTALLED, SELSTATE_INSTALL⟩

/-- Sample data: the single version of `pkg`, providing the virtual name
`zzz` (which sorts after `pkg`). -/
def sVer : Version := ⟨sAttrs, "1.0", "amd64", ["zzz"], "some description", "sum"⟩

/-- Sample data: the well-formed package `pkg`. -/
def sPkg : Package := ⟨sAttrs, [sVer], some sVer⟩

/-- Sample data: attributes of a broken installed package whose low-level
status code is `CURSTATE_INSTALLED` (which alone would map to `'i'`). -/
def brokenAttrs : PkgAttrs :=
  ⟨"pkg", some "1.0", none, true, false, false, false, CURSTATE_INSTALLED, SELSTATE_INSTALL⟩

/-- Sample data: the installed version of the broken package. -/
def brokenVer : Version := ⟨brokenAttrs, "1.0", "amd64", [], "d", "s"⟩

/-- Sample data: attributes of an installed package whose selected-state
code 99 is none of the five dpkg selection codes. -/
def oddSelAttrs : PkgAttrs :=
  ⟨"pkg", some "1.0", none, false, false, false, false, CURSTATE_INSTALLED, 99⟩

/-- Sample data: the installed version of the odd-selection package. -/
def oddSelVer : Version := ⟨oddSelAttrs, "1.0", "amd64", [], "d", "s"⟩

/-! ### Order lemmas for the sort key -/

theorem charToNat_inj {a b : Char} (h : a.toNat = b.toNat) : a = b :=
  Char.ext (UInt32.ext h)

theorem listLtChar_irrefl (l : List Char) : listLtChar l l = false := by
  induction l with
  | nil => rfl
  | cons a as ih => simp [listLtChar, ih]

theorem listLtChar_trans : ∀ a b c : List Char, listLtChar a b = true →
    listLtChar b c = true → listLtChar a c = true := by
  intro a
  induction a with
  | nil =>
    intro b c h1 h2
    cases c with
    | nil =>
      cases b with
      | nil => exact h1
      | cons y ys => simp [listLtChar] at h2
    | cons z zs => simp [listLtChar]
  | cons x xs ih =>
    intro b c h1 h2
    cases b with
    | nil => simp [listLtChar] at h1
    | cons y ys =>
      cases c with
      | nil => simp [listLtChar] at h2
      | cons z zs =>
        simp only [listLtChar] at h1 h2 ⊢
        by_cases hxy : x.toNat < y.toNat
        · by_cases hyz : y.toNat < z.toNat
          · simp [Nat.lt_trans hxy hyz]
          · by_cases hzy : z.toNat < y.toNat
            · simp [hyz, hzy] at h2
            · have hyzeq : y.toNat = z.toNat :=
                Nat.le_antisymm (Nat.le_of_not_lt hzy) (Nat.le_of_not_lt hyz)
              simp [hyzeq ▸ hxy]
        · by_cases hyx : y.toNat < x.toNat
          · simp [hxy, hyx] at h1
          · have hxyeq : x.toNat = y.toNat :=
              Nat.le_antisymm (Nat.le_of_not_lt hyx) (Nat.le_of_not_lt hxy)
            by_cases hyz : y.toNat < z.toNat
            · simp [hxyeq ▸ hyz]
            · by_cases hzy : z.toNat < y.toNat
              · simp [hyz, hzy] at h2
              · have hyzeq : y.toNat = z.toNat :=
                  Nat.le_antisymm (Nat.le_of_not_lt hzy) (Nat.le_of_not_lt hyz)
                simp only [hxy, if_false, hyx, if_false] at h1
                simp only [hyz, if_false, hzy, if_false] at h2
                have hxz : ¬ x.toNat < z.toNat := by omega
                have hzx : ¬ z.toNat < x.toNat := by omega
                simp only [hxz, if_false, hzx, if_false]
                exact ih ys zs h1 h2

theorem listLtChar_trichotomy : ∀ a b : List Char,
    listLtChar a b = true ∨ a = b ∨ listLtChar b a = true := by
  intro a
  induction a with
  | nil =>
    intro b
    cases b with
    | nil => exact Or.inr (Or.inl rfl)
    | cons y ys => exact Or.inl (by simp [listLtChar])
  | cons x xs ih =>
    intro b
    cases b with
    | nil => exact Or.inr (Or.inr (by simp [listLtChar]))
    | cons y ys =>
      rcases Nat.lt_trichotomy x.toNat y.toNat with h | h | h
      · exact Or.inl (by simp [listLtChar, h])
      · have hxy : x = y := charToNat_inj h
        subst hxy
        rcases ih ys with h2 | h2 | h2
        · exact Or.inl (by simp [listLtChar, h2])
        · exact Or.inr (Or.inl (by rw [h2]))
        · exact Or.inr (Or.inr (by simp [listLtChar, h2]))
      · exact Or.inr (Or.inr (by simp [listLtChar, h]))

theorem strLtB_irrefl (s : String) : strLtB s s = false := listLtChar_irrefl _

theorem strLtB_trans {s t u : String} (h1 : strLtB s t = true)
    (h2 : strLtB t u = true) : strLtB s u = true :=
  listLtChar_trans _ _ _ h1 h2

theorem strLtB_trichotomy (s t : String) :
    strLtB s t = true ∨ s = t ∨ strLtB t s = true := by
  rcases listLtChar_trichotomy s.toList t.toList with h | h | h
  · exact Or.inl h
  · exact Or.inr (Or.inl (String.ext h))
  · exact Or.inr (Or.inr h)

theorem strLtB_ne {s t : String} (h : strLtB s t = true) : s ≠ t := by
  intro he
  rw [he, strLtB_irrefl] at h
  cases h

theorem strLtB_asymm {s t : String} (h1 : strLtB s t = true)
    (h2 : strLtB t s = true) : False :=
  absurd (strLtB_trans h1 h2) (by simp [strLtB_irrefl])

/-- `keyLt` in propositional form. -/
theorem keyLt_iff (a b : Key) : keyLt a b = true ↔
    strLtB a.1 b.1 = true ∨
      (a.1 = b.1 ∧ (strLtB a.2.1 b.2.1 = true ∨
        (a.2.1 = b.2.1 ∧ strLtB a.2.2 b.2.2 = true))) := by
  simp [keyLt, Bool.or_eq_true, Bool.and_eq_true, beq_iff_eq]

/-- `keyLe` in propositional form. -/
theorem keyLe_iff (a b : Key) : keyLe a b = true ↔
    keyLt a b = true ∨ a = b := by
  obtain ⟨a1, a2, a3⟩ := a
  obtain ⟨b1, b2, b3⟩ := b
  simp only [keyLe, keyLt, Bool.or_eq_true, Bool.and_eq_true, beq_iff_eq,
    Prod.mk.injEq]
  constructor
  · rintro (h | ⟨h1, h | ⟨h2, h | h3⟩⟩)
    · exact Or.inl (Or.inl h)
    · exact Or.inl (Or.inr ⟨h1, Or.inl h⟩)
    · exact Or.inl (Or.inr ⟨h1, Or.inr ⟨h2, h⟩⟩)
    · exact Or.inr ⟨h1, h2, h3⟩
  · rintro ((h | ⟨h1, h | ⟨h2, h⟩⟩) | ⟨h1, h2, h3⟩)
    · exact Or.inl h
    · exact Or.inr ⟨h1, Or.inl h⟩
    · exact Or.inr ⟨h1, Or.inr ⟨h2, Or.inl h⟩⟩
    · exact Or.inr ⟨h1, Or.inr ⟨h2, Or.inr h3⟩⟩

theorem keyLt_irrefl (a : Key) : keyLt a a = false := by
  rcases h : keyLt a a with _ | _
  · rfl
  · rcases (keyLt_iff a a).mp h with h1 | ⟨_, h2 | ⟨_, h3⟩⟩
    · exact absurd h1 (by simp [strLtB_irrefl])
    · exact absurd h2 (by simp [strLtB_irrefl])
    · exact absurd h3 (by simp [strLtB_irrefl])

theorem keyLt_trans {a b c : Key} (h1 : keyLt a b = true)
    (h2 : keyLt b c = true) : keyLt a c = true := by
  rw [keyLt_iff] at h1 h2 ⊢
  rcases h1 with h1 | ⟨e1, h1⟩
  · rcases h2 with h2 | ⟨e2, h2⟩
    · exact Or.inl (strLtB_trans h1 h2)
    · exact Or.inl (e2 ▸ h1)
  · rcases h2 with h2 | ⟨e2, h2⟩
    · exact Or.inl (e1 ▸ h2)
    · refine Or.inr ⟨e1.trans e2, ?_⟩
      rcases h1 with h1 | ⟨f1, h1⟩
      · rcases h2 with h2 | ⟨f2, h2⟩
        · exact Or.inl (strLtB_trans h1 h2)
        · exact Or.inl (f2 ▸ h1)
      · rcases h2 with h2 | ⟨f2, h2⟩
        · exact Or.inl (f1 ▸ h2)
        · exact Or.inr ⟨f1.trans f2, strLtB_trans h1 h2⟩

theorem keyLt_asymm {a b : Key} (h1 : keyLt a b = true)
    (h2 : keyLt b a = true) : False := by
  have := keyLt_trans h1 h2
  rw [keyLt_irrefl] at this
  cases this

theorem keyLt_trichotomy (a b : Key) :
    keyLt a b = true ∨ a = b ∨ keyLt b a = true := by
  obtain ⟨a1, a2, a3⟩ := a
  obtain ⟨b1, b2, b3⟩ := b
  rcases strLtB_trichotomy a1 b1 with h1 | h1 | h1
  · exact Or.inl ((keyLt_iff _ _).mpr (Or.inl h1))
  · subst h1
    rcases strLtB_trichotomy a2 b2 with h2 | h2 | h2
    · exact Or.inl ((keyLt_iff _ _).mpr (Or.inr ⟨rfl, Or.inl h2⟩))
    · subst h2
      rcases strLtB_trichotomy a3 b3 with h3 | h3 | h3
      · exact Or.inl ((keyLt_iff _ _).mpr (Or.inr ⟨rfl, Or.inr ⟨rfl, h3⟩⟩))
      · subst h3
        exact Or.inr (Or.inl rfl)
      · exact Or.inr (Or.inr ((keyLt_iff _ _).mpr (Or.inr ⟨rfl, Or.inr ⟨rfl, h3⟩⟩)))
    · exact Or.inr (Or.inr ((keyLt_iff _ _).mpr (Or.inr ⟨rfl, Or.inl h2⟩)))
  · exact Or.inr (Or.inr ((keyLt_iff _ _).mpr (Or.inl h1)))

theorem keyLe_refl (a : Key) : keyLe a a = true :=
  (keyLe_iff a a).mpr (Or.inr rfl)

theorem keyLe_total (a b : Key) : keyLe a b = true ∨ keyLe b a = true := by
  rcases keyLt_trichotomy a b with h | h | h
  · exact Or.inl ((keyLe_iff _ _).mpr (Or.inl h))
  · exact Or.inl ((keyLe_iff _ _).mpr (Or.inr h))
  · exact Or.inr ((keyLe_iff _ _).mpr (Or.inl h))

theorem keyLe_trans {a b c : Key} (h1 : keyLe a b = true)
    (h2 : keyLe b c = true) : keyLe a c = true := by
  rw [keyLe_iff] at h1 h2 ⊢
  rcases h1 with h1 | rfl
  · rcases h2 with h2 | rfl
    · exact Or.inl (keyLt_trans h1 h2)
    · exact Or.inl h1
  · exact h2

theorem keyLt_of_le_of_ne {a b : Key} (h : keyLe a b = true) (hne : a ≠ b) :
    keyLt a b = true := by
  rcases (keyLe_iff a b).mp h with h1 | rfl
  · exact h1
  · exact absurd rfl hne

theorem keyLe_antisymm {a b : Key} (h1 : keyLe a b = true)
    (h2 : keyLe b a = true) : a = b := by
  rcases (keyLe_iff a b).mp h1 with h1 | rfl
  · rcases (keyLe_iff b a).mp h2 with h2 | rfl
    · exact absurd (keyLt_trans h1 h2) (by simp [keyLt_irrefl])
    · rfl
  · rfl

/-! ### Sorting, dedup and merge lemmas -/

theorem mem_sortByKey {x : Match} {l : List Match} : x ∈ sortByKey l ↔ x ∈ l :=
  (List.perm_insertionSort matchLE l).mem_iff

theorem sorted_sortByKey (l : List Match) : List.Sorted matchLE (sortByKey l) := by
  haveI : IsTotal Match matchLE :=
    ⟨fun a b => keyLe_total (namever_key a) (namever_key b)⟩
  haveI : IsTrans Match matchLE :=
    ⟨fun _ _ _ h1 h2 => keyLe_trans h1 h2⟩
  exact List.sorted_insertionSort matchLE l

theorem KeyInjOn.mono {l l' : List Match} (hsub : ∀ x ∈ l', x ∈ l)
    (h : KeyInjOn l) : KeyInjOn l' :=
  fun x hx y hy hk => h x (hsub x hx) y (hsub y hy) hk

theorem dedupAdjAux_subset (prev : Match) (l : List Match) :
    ∀ x ∈ dedupAdjAux prev l, x ∈ l := by
  induction l generalizing prev with
  | nil => intro x hx; simp [dedupAdjAux] at hx
  | cons y ys ih =>
    intro x hx
    simp only [dedupAdjAux] at hx
    by_cases h : namever_key y = namever_key prev
    · rw [if_pos h] at hx
      exact List.mem_cons_of_mem _ (ih y x hx)
    · rw [if_neg h] at hx
      rcases List.mem_cons.mp hx with rfl | hx
      · exact List.mem_cons_self _ _
      · exact List.mem_cons_of_mem _ (ih y x hx)

theorem dedupAdj_subset {l : List Match} : ∀ x ∈ dedupAdj l, x ∈ l := by
  cases l with
  | nil => intro x hx; simp [dedupAdj] at hx
  | cons y ys =>
    intro x hx
    simp only [dedupAdj] at hx
    rcases List.mem_cons.mp hx with rfl | hx
    · exact List.mem_cons_self _ _
    · exact List.mem_cons_of_mem _ (dedupAdjAux_subset y ys x hx)

theorem dedupAdjAux_mem (prev : Match) (l : List Match)
    (hinj : KeyInjOn (prev :: l)) : ∀ x ∈ l, x ∈ prev :: dedupAdjAux prev l := by
  induction l generalizing prev with
  | nil => intro x hx; cases hx
  | cons y ys ih =>
    intro x hx
    have hinj' : KeyInjOn (y :: ys) := by
      refine KeyInjOn.mono ?_ hinj
      intro a ha
      exact List.mem_cons_of_mem _ ha
    simp only [dedupAdjAux]
    by_cases h : namever_key y = namever_key prev
    · have hy : y = prev :=
        hinj y (List.mem_cons_of_mem _ (List.mem_cons_self _ _)) prev
          (List.mem_cons_self _ _) h
      rw [if_pos h]
      rcases List.mem_cons.mp hx with rfl | hx'
      · rw [hy]
        exact List.mem_cons_self _ _
      · have hrec := ih y hinj' x hx'
        rcases List.mem_cons.mp hrec with rfl | h2
        · rw [hy]
          exact List.mem_cons_self _ _
        · exact List.mem_cons_of_mem _ h2
    · rw [if_neg h]
      rcases List.mem_cons.mp hx with rfl | hx'
      · exact List.mem_cons_of_mem _ (List.mem_cons_self _ _)
      · have hrec := ih y hinj' x hx'
        rcases List.mem_cons.mp hrec with rfl | h2
        · exact List.mem_cons_of_mem _ (List.mem_cons_self _ _)
        · exact List.mem_cons_of_mem _ (List.mem_cons_of_mem _ h2)

theorem dedupAdj_mem {l : List Match} (hinj : KeyInjOn l) :
    ∀ x ∈ l, x ∈ dedupAdj l := by
  cases l with
  | nil => intro x hx; cases hx
  | cons y ys =>
    intro x hx
    simp only [dedupAdj]
    rcases List.mem_cons.mp hx with rfl | hx'
    · exact List.mem_cons_self _ _
    · exact dedupAdjAux_mem y ys hinj x hx'

theorem combine_subset {A B : List Match} {x : Match} (hx : x ∈ combine A B) :
    x ∈ A ∨ x ∈ B :=
  List.mem_append.mp (mem_sortByKey.mp (dedupAdj_subset _ hx))

theorem mem_combine {A B : List Match} (hinj : KeyInjOn (A ++ B)) {x : Match} :
    x ∈ combine A B ↔ x ∈ A ∨ x ∈ B := by
  constructor
  · exact combine_subset
  · intro hx
    have hx' : x ∈ sortByKey (A ++ B) :=
      mem_sortByKey.mpr (List.mem_append.mpr hx)
    have hinj' : KeyInjOn (sortByKey (A ++ B)) :=
      KeyInjOn.mono (fun y hy => mem_sortByKey.mp hy) hinj
    exact dedupAdj_mem hinj' x hx'

/-! ### Filter lemmas -/

theorem filter_nil : ∀ m : Matcher, m.filter [] = [] := by
  intro m
  induction m with
  | MatchName f => rfl
  | MatchDesc f => rfl
  | Installed => rfl
  | Nonvirtual => rfl
  | MatchArch a => rfl
  | AndCombiner l r ihl ihr => simp [Matcher.filter, ihl]
  | OrCombiner l r ihl ihr => simp [Matcher.filter, ihl, ihr, combine, sortByKey, List.insertionSort, dedupAdj]

theorem and_filter_eq (l r : Matcher) (L : List Match) :
    (Matcher.AndCombiner l r).filter L = r.filter (l.filter L) := by
  simp only [Matcher.filter]
  by_cases h : (l.filter L).isEmpty
  · rw [if_pos h, List.isEmpty_iff.mp h, filter_nil]
  · rw [if_neg h]

theorem filter_subset : ∀ (m : Matcher) (L : List Match) (x : Match),
    x ∈ m.filter L → x ∈ L := by
  intro m
  induction m with
  | MatchName f => intro L x hx; exact (List.mem_filter.mp hx).1
  | MatchDesc f => intro L x hx; exact (List.mem_filter.mp hx).1
  | Installed => intro L x hx; exact (List.mem_filter.mp hx).1
  | Nonvirtual => intro L x hx; exact (List.mem_filter.mp hx).1
  | MatchArch a => intro L x hx; exact (List.mem_filter.mp hx).1
  | AndCombiner l r ihl ihr =>
    intro L x hx
    rw [and_filter_eq] at hx
    exact ihl L x (ihr _ x hx)
  | OrCombiner l r ihl ihr =>
    intro L x hx
    rcases combine_subset hx with h | h
    · exact ihl L x h
    · exact ihr L x h

theorem mem_matcherFilter : ∀ (m : Matcher) (L : List Match), KeyInjOn L →
    ∀ x : Match, x ∈ m.filter L ↔ x ∈ L ∧ SatP m x := by
  intro m
  induction m with
  | MatchName f =>
    intro L _ x
    simp [Matcher.filter, List.mem_filter, SatP]
  | MatchDesc f =>
    intro L _ x
    simp [Matcher.filter, List.mem_filter, SatP]
  | Installed =>
    intro L _ x
    simp [Matcher.filter, List.mem_filter, SatP]
  | Nonvirtual =>
    intro L _ x
    simp [Matcher.filter, List.mem_filter, SatP]
  | MatchArch a =>
    intro L _ x
    simp [Matcher.filter, List.mem_filter, SatP]
  | AndCombiner l r ihl ihr =>
    intro L hinj x
    rw [and_filter_eq]
    have hinj' : KeyInjOn (l.filter L) :=
      KeyInjOn.mono (fun y hy => filter_subset l L y hy) hinj
    rw [ihr _ hinj', ihl _ hinj]
    simp only [SatP, and_assoc]
  | OrCombiner l r ihl ihr =>
    intro L hinj x
    have hsubL : ∀ y ∈ l.filter L ++ r.filter L, y ∈ L := by
      intro y hy
      rcases List.mem_append.mp hy with h | h
      · exact filter_subset l L y h
      · exact filter_subset r L y h
    show x ∈ combine (l.filter L) (r.filter L) ↔ _
    rw [mem_combine (KeyInjOn.mono hsubL hinj), ihl _ hinj, ihr _ hinj]
    simp only [SatP]
    tauto

/-! ### Match lemmas -/

theorem mem_allMatchesPkg {p : Package} {x : Match} :
    x ∈ allMatchesPkg p ↔
      x.2 ∈ p.versions ∧ (x.1 ∈ x.2.provides ∨ x.1 = p.attrs.name) := by
  simp only [allMatchesPkg, List.mem_flatMap, List.mem_append, List.mem_map,
    List.mem_singleton]
  constructor
  · rintro ⟨v, hv, (⟨pr, hpr, rfl⟩ | rfl)⟩
    · exact ⟨hv, Or.inl hpr⟩
    · exact ⟨hv, Or.inr rfl⟩
  · rintro ⟨hv, h | h⟩
    · exact ⟨x.2, hv, Or.inl ⟨x.1, h, rfl⟩⟩
    · refine ⟨x.2, hv, Or.inr ?_⟩
      rw [← h]

theorem keyInjOn_allMatchesPkg {p : Package} (h : p.WF) :
    KeyInjOn (allMatchesPkg p) := by
  intro x hx y hy hk
  obtain ⟨hx2, _⟩ := mem_allMatchesPkg.mp hx
  obtain ⟨hy2, _⟩ := mem_allMatchesPkg.mp hy
  have h1 : x.1 = y.1 := congrArg (fun k : Key => k.1) hk
  have h3 : x.2.verStr = y.2.verStr := congrArg (fun k : Key => k.2.2) hk
  exact Prod.ext h1 (h.2.1 x.2 hx2 y.2 hy2 h3)

theorem keyInjOn_allMatches {ps : List Package} (hwf : ∀ p ∈ ps, p.WF)
    (hname : ∀ p ∈ ps, ∀ q ∈ ps, p.attrs.name = q.attrs.name → p = q) :
    KeyInjOn (allMatches ps) := by
  intro x hx y hy hk
  rw [allMatches, List.mem_flatMap] at hx hy
  obtain ⟨p, hp, hxp⟩ := hx
  obtain ⟨q, hq, hyq⟩ := hy
  have hxpkg : x.2.pkg = p.attrs := (hwf p hp).1 x.2 (mem_allMatchesPkg.mp hxp).1
  have hypkg : y.2.pkg = q.attrs := (hwf q hq).1 y.2 (mem_allMatchesPkg.mp hyq).1
  have h2 : x.2.pkg.name = y.2.pkg.name := congrArg (fun k : Key => k.2.1) hk
  have hpq : p = q := by
    refine hname p hp q hq ?_
    rw [← hxpkg, ← hypkg]
    exact h2
  subst hpq
  exact keyInjOn_allMatchesPkg (hwf p hp) x hxp y hyq hk

theorem and_matchPkg_eq (l r : Matcher) (p : Package) :
    (Matcher.AndCombiner l r).matchPkg p = r.filter (l.matchPkg p) := by
  simp only [Matcher.matchPkg]
  by_cases h : (l.matchPkg p).isEmpty
  · rw [if_pos h, List.isEmpty_iff.mp h, filter_nil]
  · rw [if_neg h]

theorem wf_installed_some {p : Package} (h : p.WF) {iv : Version}
    (hiv : p.installed = some iv) :
    iv ∈ p.versions ∧ p.attrs.installedVer = some iv.verStr := by
  obtain ⟨_, _, hlink, hmem⟩ := h
  rw [hiv] at hlink hmem
  refine ⟨?_, hlink⟩
  simpa using hmem

theorem wf_installed_none {p : Package} (h : p.WF)
    (hiv : p.installed = none) : p.attrs.installedVer = none := by
  obtain ⟨_, _, hlink, _⟩ := h
  rw [hiv] at hlink
  exact hlink

theorem mem_matchPkg : ∀ (m : Matcher) (p : Package), p.WF →
    ∀ x : Match, x ∈ m.matchPkg p ↔ x ∈ allMatchesPkg p ∧ SatP m x := by
  intro m
  induction m with
  | MatchName f =>
    intro p hwf x
    simp only [SatP]
    rw [Matcher.matchPkg, mem_sortByKey, List.mem_append]
    constructor
    · rintro (h | h)
      · rw [List.mem_flatMap] at h
        obtain ⟨v, hv, h⟩ := h
        obtain ⟨pr, hpr, rfl⟩ := List.mem_map.mp h
        rw [List.mem_filter] at hpr
        exact ⟨mem_allMatchesPkg.mpr ⟨hv, Or.inl hpr.1⟩, hpr.2⟩
      · by_cases hn : f p.attrs.name = true
        · rw [if_pos hn] at h
          obtain ⟨v, hv, rfl⟩ := List.mem_map.mp h
          exact ⟨mem_allMatchesPkg.mpr ⟨hv, Or.inr rfl⟩, hn⟩
        · rw [if_neg hn] at h
          exact absurd h (List.not_mem_nil x)
    · rintro ⟨hall, hf⟩
      obtain ⟨hv, hd⟩ := mem_allMatchesPkg.mp hall
      rcases hd with hpr | hn
      · refine Or.inl ?_
        rw [List.mem_flatMap]
        refine ⟨x.2, hv, ?_⟩
        rw [List.mem_map]
        exact ⟨x.1, List.mem_filter.mpr ⟨hpr, hf⟩, rfl⟩
      · refine Or.inr ?_
        have hfn : f p.attrs.name = true := by rw [← hn]; exact hf
        rw [if_pos hfn, List.mem_map]
        refine ⟨x.2, hv, ?_⟩
        rw [← hn]
  | MatchDesc f =>
    intro p hwf x
    simp only [SatP]
    rw [Matcher.matchPkg, mem_sortByKey, List.mem_flatMap]
    constructor
    · rintro ⟨v, hv, hx⟩
      by_cases hd : f v.longDesc = true
      · rw [if_pos hd] at hx
        rcases List.mem_append.mp hx with h | h
        · obtain ⟨pr, hpr, rfl⟩ := List.mem_map.mp h
          exact ⟨mem_allMatchesPkg.mpr ⟨hv, Or.inl hpr⟩, hd⟩
        · rw [List.mem_singleton] at h
          subst h
          exact ⟨mem_allMatchesPkg.mpr ⟨hv, Or.inr rfl⟩, hd⟩
      · rw [if_neg hd] at hx
        exact absurd hx (List.not_mem_nil x)
    · rintro ⟨hall, hf⟩
      obtain ⟨hv, hd⟩ := mem_allMatchesPkg.mp hall
      refine ⟨x.2, hv, ?_⟩
      rw [if_pos hf]
      rcases hd with hpr | hn
      · exact List.mem_append.mpr (Or.inl (List.mem_map.mpr ⟨x.1, hpr, rfl⟩))
      · refine List.mem_append.mpr (Or.inr ?_)
        rw [List.mem_singleton, ← hn]
  | Installed =>
    intro p hwf x
    cases hiv : p.installed with
    | none =>
      simp only [Matcher.matchPkg, hiv, List.not_mem_nil, false_iff]
      rintro ⟨hall, hname', hinst⟩
      obtain ⟨hv, _⟩ := mem_allMatchesPkg.mp hall
      rw [hwf.1 x.2 hv, wf_installed_none hwf hiv] at hinst
      cases hinst
    | some iv =>
      obtain ⟨hivmem, hivlink⟩ := wf_installed_some hwf hiv
      simp only [Matcher.matchPkg, hiv, List.mem_singleton, SatP]
      constructor
      · rintro rfl
        refine ⟨mem_allMatchesPkg.mpr ⟨hivmem, Or.inr rfl⟩, ?_, ?_⟩
        · rw [hwf.1 iv hivmem]
        · rw [hwf.1 iv hivmem]
          exact hivlink
      · rintro ⟨hall, hname', hinst⟩
        obtain ⟨hv, _⟩ := mem_allMatchesPkg.mp hall
        rw [hwf.1 x.2 hv] at hname' hinst
        rw [hivlink] at hinst
        have hx2 : x.2 = iv :=
          hwf.2.1 x.2 hv iv hivmem (Option.some.inj hinst).symm
        refine Prod.ext ?_ hx2
        rw [← hname']
  | Nonvirtual =>
    intro p hwf x
    simp only [Matcher.matchPkg, List.mem_map, mem_allMatchesPkg, SatP]
    constructor
    · rintro ⟨v, hv, rfl⟩
      exact ⟨⟨hv, Or.inr rfl⟩, by rw [hwf.1 v hv]⟩
    · rintro ⟨⟨hv, _⟩, hn⟩
      refine ⟨x.2, hv, ?_⟩
      rw [hwf.1 x.2 hv] at hn
      rw [← hn]
  | MatchArch a =>
    intro p hwf x
    simp only [SatP]
    rw [Matcher.matchPkg, List.mem_flatMap]
    constructor
    · rintro ⟨v, hv, hx⟩
      by_cases hd : a.contains v.architecture = true
      · rw [if_pos hd] at hx
        rcases List.mem_append.mp hx with h | h
        · obtain ⟨pr, hpr, rfl⟩ := List.mem_map.mp h
          exact ⟨mem_allMatchesPkg.mpr ⟨hv, Or.inl hpr⟩, hd⟩
        · rw [List.mem_singleton] at h
          subst h
          exact ⟨mem_allMatchesPkg.mpr ⟨hv, Or.inr rfl⟩, hd⟩
      · rw [if_neg hd] at hx
        exact absurd hx (List.not_mem_nil x)
    · rintro ⟨hall, hf⟩
      obtain ⟨hv, hd⟩ := mem_allMatchesPkg.mp hall
      refine ⟨x.2, hv, ?_⟩
      rw [if_pos hf]
      rcases hd with hpr | hn
      · exact List.mem_append.mpr (Or.inl (List.mem_map.mpr ⟨x.1, hpr, rfl⟩))
      · refine List.mem_append.mpr (Or.inr ?_)
        rw [List.mem_singleton, ← hn]
  | AndCombiner l r ihl ihr =>
    intro p hwf x
    rw [and_matchPkg_eq]
    have hsub : ∀ y ∈ l.matchPkg p, y ∈ allMatchesPkg p :=
      fun y hy => ((ihl p hwf y).mp hy).1
    have hinj : KeyInjOn (l.matchPkg p) :=
      KeyInjOn.mono hsub (keyInjOn_allMatchesPkg hwf)
    rw [mem_matcherFilter r _ hinj, ihl p hwf]
    simp only [SatP, and_assoc]
  | OrCombiner l r ihl ihr =>
    intro p hwf x
    have hsub : ∀ y ∈ l.matchPkg p ++ r.matchPkg p, y ∈ allMatchesPkg p := by
      intro y hy
      rcases List.mem_append.mp hy with h | h
      · exact ((ihl p hwf y).mp h).1
      · exact ((ihr p hwf y).mp h).1
    show x ∈ combine (l.matchPkg p) (r.matchPkg p) ↔ _
    rw [mem_combine (KeyInjOn.mono hsub (keyInjOn_allMatchesPkg hwf)),
      ihl p hwf, ihr p hwf]
    simp only [SatP]
    tauto

theorem mem_matchAll {m : Matcher} {ps : List Package}
    (hwf : ∀ p ∈ ps, p.WF) {x : Match} :
    x ∈ matchAll m ps ↔ x ∈ allMatches ps ∧ SatP m x := by
  simp only [matchAll, allMatches, List.mem_flatMap]
  constructor
  · rintro ⟨p, hp, hx⟩
    obtain ⟨hall, hsat⟩ := (mem_matchPkg m p (hwf p hp) x).mp hx
    exact ⟨⟨p, hp, hall⟩, hsat⟩
  · rintro ⟨⟨p, hp, hall⟩, hsat⟩
    exact ⟨p, hp, (mem_matchPkg m p (hwf p hp) x).mpr ⟨hall, hsat⟩⟩

/-! ### Strict sortedness: sorted-and-deduplicated lists are canonical -/

theorem keyLt_ne {k1 k2 : Key} (h : keyLt k1 k2 = true) : k1 ≠ k2 := by
  intro he
  rw [he, keyLt_irrefl] at h
  cases h

theorem matchLT_irrefl (a : Match) : ¬ matchLT a a := by
  intro h
  rw [matchLT, keyLt_irrefl] at h
  cases h

theorem dedupAdjAux_strict : ∀ (l : List Match) (prev : Match),
    List.Pairwise matchLE (prev :: l) →
    (∀ y ∈ dedupAdjAux prev l, matchLT prev y) ∧
      List.Pairwise matchLT (dedupAdjAux prev l) := by
  intro l
  induction l with
  | nil =>
    intro prev _
    constructor
    · intro y hy
      simp [dedupAdjAux] at hy
    · simp [dedupAdjAux]
  | cons y ys ih =>
    intro prev h
    have hpy : matchLE prev y := (List.pairwise_cons.mp h).1 y (List.mem_cons_self _ _)
    have htail : List.Pairwise matchLE (y :: ys) := (List.pairwise_cons.mp h).2
    obtain ⟨ihall, ihstrict⟩ := ih y htail
    simp only [dedupAdjAux]
    by_cases hk : namever_key y = namever_key prev
    · rw [if_pos hk]
      refine ⟨?_, ihstrict⟩
      intro z hz
      have hyz := ihall z hz
      rw [matchLT] at hyz ⊢
      rw [← hk]
      exact hyz
    · rw [if_neg hk]
      have hlt : matchLT prev y := keyLt_of_le_of_ne hpy (Ne.symm hk)
      constructor
      · intro z hz
        rcases List.mem_cons.mp hz with rfl | hz'
        · exact hlt
        · exact keyLt_trans hlt (ihall z hz')
      · exact List.pairwise_cons.mpr ⟨ihall, ihstrict⟩

theorem dedupAdj_strict {l : List Match} (h : List.Pairwise matchLE l) :
    List.Pairwise matchLT (dedupAdj l) := by
  cases l with
  | nil => simp [dedupAdj]
  | cons y ys =>
    obtain ⟨hall, hstrict⟩ := dedupAdjAux_strict ys y h
    simp only [dedupAdj]
    exact List.pairwise_cons.mpr ⟨hall, hstrict⟩

theorem mem_dedupAdj {l : List Match} (hinj : KeyInjOn l) {x : Match} :
    x ∈ dedupAdj l ↔ x ∈ l :=
  ⟨fun h => dedupAdj_subset x h, fun h => dedupAdj_mem hinj x h⟩

theorem nodupKeys_of_strict {l : List Match} (h : List.Pairwise matchLT l) :
    (l.map namever_key).Nodup :=
  List.pairwise_map.mpr (h.imp fun hlt => keyLt_ne hlt)

theorem strict_of_sorted_nodupKeys {l : List Match}
    (hs : List.Pairwise matchLE l) (hn : (l.map namever_key).Nodup) :
    List.Pairwise matchLT l := by
  have hne : List.Pairwise (fun a b : Match => namever_key a ≠ namever_key b) l :=
    List.pairwise_map.mp hn
  exact (hs.and hne).imp fun ⟨hle, hne'⟩ => keyLt_of_le_of_ne hle hne'

theorem strict_eq_of_mem_iff : ∀ (l1 l2 : List Match),
    List.Pairwise matchLT l1 → List.Pairwise matchLT l2 →
    (∀ x, x ∈ l1 ↔ x ∈ l2) → l1 = l2 := by
  intro l1
  induction l1 with
  | nil =>
    intro l2 _ _ hmem
    cases l2 with
    | nil => rfl
    | cons b t2 => exact absurd ((hmem b).mpr (List.mem_cons_self _ _)) (List.not_mem_nil b)
  | cons a t1 ih =>
    intro l2 h1 h2 hmem
    cases l2 with
    | nil => exact absurd ((hmem a).mp (List.mem_cons_self _ _)) (List.not_mem_nil a)
    | cons b t2 =>
      obtain ⟨h1a, h1t⟩ := List.pairwise_cons.mp h1
      obtain ⟨h2b, h2t⟩ := List.pairwise_cons.mp h2
      have hab : a = b := by
        rcases List.mem_cons.mp ((hmem a).mp (List.mem_cons_self _ _)) with h | ha2
        · exact h
        · rcases List.mem_cons.mp ((hmem b).mpr (List.mem_cons_self _ _)) with h | hb1
          · exact h.symm
          · exact absurd (keyLt_trans (h1a b hb1) (h2b a ha2)) (by
              intro hcon
              exact matchLT_irrefl a hcon)
      subst hab
      have htmem : ∀ x, x ∈ t1 ↔ x ∈ t2 := by
        intro x
        constructor
        · intro hx
          rcases List.mem_cons.mp ((hmem x).mp (List.mem_cons_of_mem _ hx)) with rfl | h
          · exact absurd (h1a x hx) (matchLT_irrefl x)
          · exact h
        · intro hx
          rcases List.mem_cons.mp ((hmem x).mpr (List.mem_cons_of_mem _ hx)) with rfl | h
          · exact absurd (h2b x hx) (matchLT_irrefl x)
          · exact h
      rw [ih t2 h1t h2t htmem]

theorem pairwise_name_inj : ∀ {ps : List Package},
    ps.Pairwise (fun p q => p.attrs.name ≠ q.attrs.name) →
    ∀ p ∈ ps, ∀ q ∈ ps, p.attrs.name = q.attrs.name → p = q := by
  intro ps
  induction ps with
  | nil => intro _ p hp; cases hp
  | cons a t ih =>
    intro h p hp q hq heq
    rcases List.mem_cons.mp hp with rfl | hp' <;> rcases List.mem_cons.mp hq with rfl | hq'
    · rfl
    · exact absurd heq ((List.pairwise_cons.mp h).1 q hq')
    · exact absurd heq.symm ((List.pairwise_cons.mp h).1 p hp')
    · exact ih (List.pairwise_cons.mp h).2 p hp' q hq' heq

/-! ### Scanner evaluation lemmas for the format compiler -/


theorem findChar_eq_none_iff (c : Char) : ∀ l : List Char, findChar c l = none ↔ c ∉ l := by
  intro l
  induction l with
  | nil => simp [findChar]
  | cons x xs ih =>
    simp only [findChar, List.mem_cons]
    by_cases h : x = c
    · subst h
      simp
    · rw [if_neg h, Option.map_eq_none', ih]
      constructor
      · intro hnx hmem
        rcases hmem with rfl | hmem
        · exact h rfl
        · exact hnx hmem
      · intro hall hmem
        exact hall (Or.inr hmem)

theorem findChar_append (c : Char) : ∀ (pre suf : List Char), c ∉ pre →
    findChar c (pre ++ c :: suf) = some pre.length := by
  intro pre
  induction pre with
  | nil => intro suf _; simp [findChar]
  | cons x xs ih =>
    intro suf hpre
    have hx : x ≠ c := fun h => hpre (h ▸ List.mem_cons_self _ _)
    rw [List.cons_append, findChar, if_neg hx, ih suf (fun h => hpre (List.mem_cons_of_mem _ h))]
    rfl

theorem findChar_some_decomp (c : Char) : ∀ (l : List Char) (i : Nat),
    findChar c l = some i →
    ∃ pre suf, l = pre ++ c :: suf ∧ i = pre.length ∧ c ∉ pre := by
  intro l
  induction l with
  | nil => intro i h; cases h
  | cons x xs ih =>
    intro i h
    simp only [findChar] at h
    by_cases hx : x = c
    · rw [if_pos hx] at h
      subst hx
      cases h
      exact ⟨[], xs, rfl, rfl, by simp⟩
    · rw [if_neg hx] at h
      obtain ⟨j, hj, rfl⟩ := Option.map_eq_some'.mp h
      obtain ⟨pre, suf, rfl, rfl, hpre⟩ := ih j hj
      refine ⟨x :: pre, suf, rfl, rfl, ?_⟩
      intro hmem
      rcases List.mem_cons.mp hmem with h' | h'
      · exact hx h'.symm
      · exact hpre h'

theorem take_decomp (pre : List Char) (c : Char) (suf : List Char) :
    (pre ++ c :: suf).take pre.length = pre := by
  rw [List.take_left]

theorem drop_decomp (pre : List Char) (c : Char) (suf : List Char) :
    (pre ++ c :: suf).drop (pre.length + 1) = suf := by
  have h1 : pre ++ c :: suf = (pre ++ [c]) ++ suf := by simp
  have hlen : pre.length + 1 = (pre ++ [c]).length := by simp
  rw [h1, hlen, List.drop_left]

theorem cfl_lit (l : List Char) (acc : String) (h : '%' ∉ l) :
    compileFormatLoop l acc = .ok (acc ++ String.mk l) := by
  rw [compileFormatLoop, (findChar_eq_none_iff '%' l).mpr h]

theorem cfl_err_end (pre : List Char) (acc : String) (hpre : '%' ∉ pre) :
    compileFormatLoop (pre ++ ['%']) acc =
      .error "IndexError: string index out of range" := by
  rw [show pre ++ ['%'] = pre ++ '%' :: [] from rfl]
  rw [compileFormatLoop, findChar_append '%' pre _ hpre]
  split
  · next hr => cases hr
  · next i hr =>
    injection hr with hi
    subst hi
    split
    · rfl
    · next c cs hr2 =>
      rw [drop_decomp] at hr2
      cases hr2

theorem cfl_err_bar_end (pre : List Char) (acc : String) (hpre : '%' ∉ pre) :
    compileFormatLoop (pre ++ '%' :: ['|']) acc =
      .error "IndexError: string index out of range" := by
  rw [compileFormatLoop, findChar_append '%' pre _ hpre]
  split
  · next hr => cases hr
  · next i hr =>
    injection hr with hi
    subst hi
    split
    · rfl
    · next c cs hr2 =>
      rw [drop_decomp] at hr2
      obtain ⟨h1, h2⟩ := List.cons_eq_cons.mp hr2
      subst h1
      subst h2
      rfl

theorem cfl_align_some (pre : List Char) (fc : Char) (fs : List Char)
    (acc piece : String) (hpre : '%' ∉ pre) (hd : fmtDispatch true fc = some piece) :
    compileFormatLoop (pre ++ '%' :: '|' :: fc :: fs) acc =
      compileFormatLoop fs (acc ++ String.mk pre ++ piece) := by
  rw [compileFormatLoop, findChar_append '%' pre _ hpre]
  split
  · next hr => cases hr
  · next i hr =>
    injection hr with hi
    subst hi
    split
    · next hr2 =>
      rw [drop_decomp] at hr2
      cases hr2
    · next c cs hr2 =>
      rw [drop_decomp] at hr2
      obtain ⟨h1, h2⟩ := List.cons_eq_cons.mp hr2
      subst h1
      subst h2
      rw [if_pos rfl]
      simp only [take_decomp, hd]

theorem cfl_align_none (pre : List Char) (fc : Char) (fs : List Char)
    (acc : String) (hpre : '%' ∉ pre) (hd : fmtDispatch true fc = none) :
    compileFormatLoop (pre ++ '%' :: '|' :: fc :: fs) acc =
      .error ("Unkown format character " ++ String.mk [fc]) := by
  rw [compileFormatLoop, findChar_append '%' pre _ hpre]
  split
  · next hr => cases hr
  · next i hr =>
    injection hr with hi
    subst hi
    split
    · next hr2 =>
      rw [drop_decomp] at hr2
      cases hr2
    · next c cs hr2 =>
      rw [drop_decomp] at hr2
      obtain ⟨h1, h2⟩ := List.cons_eq_cons.mp hr2
      subst h1
      subst h2
      rw [if_pos rfl]
      simp only [hd]

theorem cfl_noalign_some (pre : List Char) (c : Char) (cs : List Char)
    (acc piece : String) (hpre : '%' ∉ pre) (hc : c ≠ '|')
    (hd : fmtDispatch false c = some piece) :
    compileFormatLoop (pre ++ '%' :: c :: cs) acc =
      compileFormatLoop cs (acc ++ String.mk pre ++ piece) := by
  rw [compileFormatLoop, findChar_append '%' pre _ hpre]
  split
  · next hr => cases hr
  · next i hr =>
    injection hr with hi
    subst hi
    split
    · next hr2 =>
      rw [drop_decomp] at hr2
      cases hr2
    · next c' cs' hr2 =>
      rw [drop_decomp] at hr2
      obtain ⟨h1, h2⟩ := List.cons_eq_cons.mp hr2
      subst h1
      subst h2
      rw [if_neg hc]
      simp only [take_decomp, hd]

theorem cfl_noalign_none (pre : List Char) (c : Char) (cs : List Char)
    (acc : String) (hpre : '%' ∉ pre) (hc : c ≠ '|')
    (hd : fmtDispatch false c = none) :
    compileFormatLoop (pre ++ '%' :: c :: cs) acc =
      .error ("Unkown format character " ++ String.mk [c]) := by
  rw [compileFormatLoop, findChar_append '%' pre _ hpre]
  split
  · next hr => cases hr
  · next i hr =>
    injection hr with hi
    subst hi
    split
    · next hr2 =>
      rw [drop_decomp] at hr2
      cases hr2
    · next c' cs' hr2 =>
      rw [drop_decomp] at hr2
      obtain ⟨h1, h2⟩ := List.cons_eq_cons.mp hr2
      subst h1
      subst h2
      rw [if_neg hc]
      simp only [hd]

theorem ok_imp_good : ∀ (n : Nat) (l : List Char), l.length ≤ n →
    ∀ (acc out : String), compileFormatLoop l acc = Except.ok out → FmtGood l := by
  intro n
  induction n with
  | zero =>
    intro l hl acc out _
    have hnil : l = [] := List.eq_nil_of_length_eq_zero (Nat.le_zero.mp hl)
    subst hnil
    exact FmtGood.lit [] (by simp)
  | succ n ih =>
    intro l hl acc out h
    cases hfind : findChar '%' l with
    | none =>
      exact FmtGood.lit l ((findChar_eq_none_iff '%' l).mp hfind)
    | some i =>
      obtain ⟨pre, suf, rfl, hi, hpre⟩ := findChar_some_decomp '%' l i hfind
      cases suf with
      | nil =>
        rw [show pre ++ '%' :: [] = pre ++ ['%'] from rfl, cfl_err_end pre acc hpre] at h
        cases h
      | cons c cs =>
        by_cases hbar : c = '|'
        · subst hbar
          cases cs with
          | nil =>
            rw [cfl_err_bar_end pre acc hpre] at h
            cases h
          | cons fc fs =>
            cases hdisp : fmtDispatch true fc with
            | none =>
              rw [cfl_align_none pre fc fs acc hpre hdisp] at h
              cases h
            | some piece =>
              rw [cfl_align_some pre fc fs acc piece hpre hdisp] at h
              have hlen : fs.length ≤ n := by
                simp only [List.length_append, List.length_cons] at hl
                omega
              have hgood := ih fs hlen _ _ h
              have hph := FmtGood.ph pre hpre true fc fs (by rw [hdisp]; rfl) hgood
              simpa using hph
        · cases hdisp : fmtDispatch false c with
          | none =>
            rw [cfl_noalign_none pre c cs acc hpre hbar hdisp] at h
            cases h
          | some piece =>
            rw [cfl_noalign_some pre c cs acc piece hpre hbar hdisp] at h
            have hlen : cs.length ≤ n := by
              simp only [List.length_append, List.length_cons] at hl
              omega
            have hgood := ih cs hlen _ _ h
            have hph := FmtGood.ph pre hpre false c cs (by rw [hdisp]; rfl) hgood
            simpa using hph

theorem good_imp_ok {l : List Char} (h : FmtGood l) :
    ∀ acc : String, ∃ out, compileFormatLoop l acc = Except.ok out := by
  induction h with
  | lit l hl =>
    intro acc
    exact ⟨acc ++ String.mk l, cfl_lit l acc hl⟩
  | ph pre hpre align c rest hc hrest ih =>
    intro acc
    cases align with
    | true =>
      obtain ⟨piece, hd⟩ := Option.isSome_iff_exists.mp hc
      have hshape : pre ++ '%' :: ((if true then ['|'] else []) ++ c :: rest) =
          pre ++ '%' :: '|' :: c :: rest := by simp
      rw [hshape, cfl_align_some pre c rest acc piece hpre hd]
      exact ih _
    | false =>
      obtain ⟨piece, hd⟩ := Option.isSome_iff_exists.mp hc
      have hcbar : c ≠ '|' := by
        intro hcl
        subst hcl
        rw [show fmtDispatch false '|' = none from rfl] at hd
        cases hd
      have hshape : pre ++ '%' :: ((if false then ['|'] else []) ++ c :: rest) =
          pre ++ '%' :: c :: rest := by simp
      rw [hshape, cfl_noalign_some pre c rest acc piece hpre hcbar hd]
      exact ih _



/-! ### Helper membership lemma for architecture matchers -/

theorem mem_matchArch {a : List String} {p : Package} {x : Match} :
    x ∈ (Matcher.MatchArch a).matchPkg p ↔
      x ∈ allMatchesPkg p ∧ a.contains x.2.architecture = true := by
  rw [Matcher.matchPkg, List.mem_flatMap]
  constructor
  · rintro ⟨v, hv, hx⟩
    by_cases hd : a.contains v.architecture = true
    · rw [if_pos hd] at hx
      rcases List.mem_append.mp hx with h | h
      · obtain ⟨pr, hpr, rfl⟩ := List.mem_map.mp h
        exact ⟨mem_allMatchesPkg.mpr ⟨hv, Or.inl hpr⟩, hd⟩
      · rw [List.mem_singleton] at h
        subst h
        exact ⟨mem_allMatchesPkg.mpr ⟨hv, Or.inr rfl⟩, hd⟩
    · rw [if_neg hd] at hx
      exact absurd hx (List.not_mem_nil x)
  · rintro ⟨hall, hf⟩
    obtain ⟨hv, hd⟩ := mem_allMatchesPkg.mp hall
    refine ⟨x.2, hv, ?_⟩
    rw [if_pos hf]
    rcases hd with hpr | hn
    · exact List.mem_append.mpr (Or.inl (List.mem_map.mpr ⟨x.1, hpr, rfl⟩))
    · refine List.mem_append.mpr (Or.inr ?_)
      rw [List.mem_singleton, ← hn]

/-! ### The claims -/

/-- Claim C1: for every atomic or composite matcher and every well-formed package
set with pairwise distinct package names, `filter` applied to the sequence of
all possible matches of that package set has exactly the members of `match`
evaluated over the same package set: filter is match's narrowing counterpart
and never returns a match that match would not return. -/
theorem C1_filter_matches_match (m : Matcher) (ps : List Package)
    (hwf : ∀ p ∈ ps, p.WF)
    (hname : ps.Pairwise (fun p q => p.attrs.name ≠ q.attrs.name))
    (x : Match) :
    x ∈ m.filter (allMatches ps) ↔ x ∈ matchAll m ps := by
  rw [mem_matcherFilter m _ (keyInjOn_allMatches hwf (pairwise_name_inj hname)) x,
    mem_matchAll hwf]

/-- Claim C1 witness: the invariant at the one-package set `[sPkg]` with the
installed matcher and its sole result pair. -/
theorem C1_witness :
    (∀ p ∈ [sPkg], p.WF) ∧
    ([sPkg].Pairwise (fun p q => p.attrs.name ≠ q.attrs.name)) ∧
    (("pkg", sVer) ∈ Matcher.Installed.filter (allMatches [sPkg]) ↔
      ("pkg", sVer) ∈ matchAll Matcher.Installed [sPkg]) := by
  have hwf : ∀ p ∈ [sPkg], p.WF := by
    intro p hp
    rw [List.mem_singleton] at hp
    subst hp
    exact ⟨by decide, by decide, by decide, by decide⟩
  exact ⟨hwf, by decide,
    C1_filter_matches_match Matcher.Installed [sPkg] hwf (by decide)
      ("pkg", sVer)⟩

/-- Claim C2: for all matchers compiled from pattern tokens, the Or-composition
evaluated over a well-formed package set with pairwise distinct package names
equals the sort-key-deduplicated union of the two sides evaluated
independently: both sides evaluated, concatenated, stable-sorted by the sort
key and adjacent equal keys collapsed keeping the first occurrence
(`combine`). -/
theorem C2_or_is_dedup_union (m1 m2 : Matcher) (ps : List Package)
    (hwf : ∀ p ∈ ps, p.WF)
    (hname : ps.Pairwise (fun p q => p.attrs.name ≠ q.attrs.name)) :
    searchResults (.OrCombiner m1 m2) ps =
      combine (searchResults m1 ps) (searchResults m2 ps) := by
  have hnameinj := pairwise_name_inj hname
  have hKeyInjAll : KeyInjOn (allMatches ps) := keyInjOn_allMatches hwf hnameinj
  have piece_sub : ∀ p ∈ ps, ∀ x ∈ (Matcher.OrCombiner m1 m2).matchPkg p,
      x ∈ allMatchesPkg p := by
    intro p hp x hx
    rcases combine_subset hx with h | h
    · exact ((mem_matchPkg m1 p (hwf p hp) x).mp h).1
    · exact ((mem_matchPkg m2 p (hwf p hp) x).mp h).1
  have piece_strict : ∀ p : Package,
      List.Pairwise matchLT ((Matcher.OrCombiner m1 m2).matchPkg p) := by
    intro p
    exact dedupAdj_strict (sorted_sortByKey _)
  have hmapkeys : ((matchAll (.OrCombiner m1 m2) ps).map namever_key).Nodup := by
    rw [matchAll, List.map_flatMap, List.nodup_flatMap]
    constructor
    · intro p _
      exact nodupKeys_of_strict (piece_strict p)
    · refine List.Pairwise.imp_of_mem ?_ hname
      intro p q hp hq hne
      intro k hkp hkq
      obtain ⟨x, hx, rfl⟩ := List.mem_map.mp hkp
      obtain ⟨y, hy, hkey⟩ := List.mem_map.mp hkq
      have hxall := mem_allMatchesPkg.mp (piece_sub p hp x hx)
      have hyall := mem_allMatchesPkg.mp (piece_sub q hq y hy)
      have hxpkg : x.2.pkg = p.attrs := (hwf p hp).1 x.2 hxall.1
      have hypkg : y.2.pkg = q.attrs := (hwf q hq).1 y.2 hyall.1
      have hqp : q.attrs.name = p.attrs.name := by
        have h2 : y.2.pkg.name = x.2.pkg.name :=
          congrArg (fun k : Key => k.2.1) hkey
        rw [hxpkg, hypkg] at h2
        exact h2
      exact hne hqp.symm
  have hstrictL : List.Pairwise matchLT (searchResults (.OrCombiner m1 m2) ps) := by
    apply strict_of_sorted_nodupKeys (sorted_sortByKey _)
    have hperm : List.Perm (sortByKey (matchAll (.OrCombiner m1 m2) ps))
        (matchAll (.OrCombiner m1 m2) ps) := List.perm_insertionSort _ _
    exact ((hperm.map namever_key).nodup_iff).mpr hmapkeys
  have hstrictR : List.Pairwise matchLT
      (combine (searchResults m1 ps) (searchResults m2 ps)) :=
    dedupAdj_strict (sorted_sortByKey _)
  refine strict_eq_of_mem_iff _ _ hstrictL hstrictR ?_
  intro x
  have hsubE : ∀ y ∈ searchResults m1 ps ++ searchResults m2 ps,
      y ∈ allMatches ps := by
    intro y hy
    rcases List.mem_append.mp hy with h | h
    · exact ((mem_matchAll hwf).mp (mem_sortByKey.mp h)).1
    · exact ((mem_matchAll hwf).mp (mem_sortByKey.mp h)).1
  have hinjE : KeyInjOn (sortByKey (searchResults m1 ps ++ searchResults m2 ps)) :=
    KeyInjOn.mono (fun y hy => hsubE y (mem_sortByKey.mp hy)) hKeyInjAll
  rw [searchResults, mem_sortByKey, mem_matchAll hwf]
  show _ ↔ x ∈ dedupAdj (sortByKey (searchResults m1 ps ++ searchResults m2 ps))
  rw [mem_dedupAdj hinjE, mem_sortByKey, List.mem_append,
    searchResults, mem_sortByKey, mem_matchAll hwf,
    searchResults, mem_sortByKey, mem_matchAll hwf]
  simp only [SatP]
  tauto

/-- Claim C2 witness: the Or of the installed and nonvirtual matchers over the
one-package set. -/
theorem C2_witness :
    (∀ p ∈ [sPkg], p.WF) ∧
    ([sPkg].Pairwise (fun p q => p.attrs.name ≠ q.attrs.name)) ∧
    searchResults (.OrCombiner Matcher.Installed Matcher.Nonvirtual) [sPkg] =
      combine (searchResults Matcher.Installed [sPkg])
        (searchResults Matcher.Nonvirtual [sPkg]) := by
  have hwf : ∀ p ∈ [sPkg], p.WF := by
    intro p hp
    rw [List.mem_singleton] at hp
    subst hp
    exact ⟨by decide, by decide, by decide, by decide⟩
  exact ⟨hwf, by decide,
    C2_or_is_dedup_union Matcher.Installed Matcher.Nonvirtual [sPkg]
      hwf (by decide)⟩

/-- Claim C3: a non-virtual result for a package whose installed version equals the
classified version and that currently reports broken gets state `'b'`, never
`'i'`, regardless of the low-level current status code. -/
theorem C3_broken_state (name : String) (v : Version)
    (hown : v.pkg.name = name)
    (hinst : v.pkg.installedVer = some v.verStr)
    (hbroken : v.pkg.isNowBroken = true) :
    (classify name v).state = 'b' ∧ (classify name v).state ≠ 'i' := by
  have hstate : (classify name v).state = 'b' := by
    simp [classify, hown, hinst, hbroken]
  exact ⟨hstate, by rw [hstate]; decide⟩

/-- Claim C3 witness: a broken installed package whose low-level status code is
`CURSTATE_INSTALLED` (which alone would map to `'i'`). -/
theorem C3_witness :
    brokenVer.pkg.name = "pkg" ∧
    brokenVer.pkg.installedVer = some brokenVer.verStr ∧
    brokenVer.pkg.isNowBroken = true ∧
    brokenVer.pkg.currentState = CURSTATE_INSTALLED ∧
    ((classify "pkg" brokenVer).state = 'b' ∧
      (classify "pkg" brokenVer).state ≠ 'i') :=
  ⟨by decide, by decide, by decide, by decide,
    C3_broken_state "pkg" brokenVer (by decide) (by decide) (by decide)⟩

/-- Claim C4 counterexample: `MatchArch.match` returns its results without
sorting; on the sample package, whose single version provides the virtual
name `zzz`, the architecture matcher emits the provides pair before the
package-name pair, so its result is not sorted by the sort key. -/
theorem C4_counterexample :
    ¬ sortedByKey ((Matcher.MatchArch ["amd64"]).matchPkg sPkg) := by
  rw [show (Matcher.MatchArch ["amd64"]).matchPkg sPkg =
    [("zzz", sVer), ("pkg", sVer)] from rfl]
  rw [sortedByKey]
  intro h
  have h2 := (List.pairwise_cons.mp h).1 ("pkg", sVer) (List.mem_cons_self _ _)
  rw [matchLE] at h2
  exact absurd h2 (by decide)

/-- Claim C4 amended: the name, description and installed matchers return
results sorted by the sort key; the architecture and nonvirtual matchers
return results in version order, which need not be sorted. -/
theorem C4_sorted_amended (m : Matcher) (p : Package)
    (h : (∃ f, m = Matcher.MatchName f) ∨ (∃ f, m = Matcher.MatchDesc f) ∨
      m = Matcher.Installed) :
    sortedByKey (m.matchPkg p) := by
  rcases h with ⟨f, rfl⟩ | ⟨f, rfl⟩ | rfl
  · exact sorted_sortByKey _
  · exact sorted_sortByKey _
  · rw [Matcher.matchPkg]
    cases p.installed with
    | none => exact List.Pairwise.nil
    | some iv => exact List.pairwise_singleton _ _

/-- Claim C4 witness: the installed matcher's result on the sample package is
sorted. -/
theorem C4_witness :
    ((∃ f, Matcher.Installed = Matcher.MatchName f) ∨
      (∃ f, Matcher.Installed = Matcher.MatchDesc f) ∨
      Matcher.Installed = Matcher.Installed) ∧
    sortedByKey (Matcher.Installed.matchPkg sPkg) :=
  ⟨Or.inr (Or.inr rfl),
    C4_sorted_amended Matcher.Installed sPkg (Or.inr (Or.inr rfl))⟩

/-- Claim C5: the architecture clause semantics: `~a` with empty rest compiles to
the default-architecture matcher, which accepts exactly versions whose
architecture is the configured default or the literal `all` (both in filter
and in match); `~aany` is skipped by the compiler, imposing no architecture
constraint; `~aamd64` compiles to a matcher accepting exactly architecture
`amd64`. -/
theorem C5_arch_clause_semantics (d : String) :
    make_search d "~a" = Except.ok (SearchCond.matcher (Matcher.MatchArch [d, "all"])) ∧
    (∀ (l : List Match) (x : Match),
      x ∈ (Matcher.MatchArch [d, "all"]).filter l ↔
        x ∈ l ∧ (x.2.architecture = d ∨ x.2.architecture = "all")) ∧
    (∀ (p : Package) (x : Match),
      x ∈ (Matcher.MatchArch [d, "all"]).matchPkg p ↔
        x ∈ allMatchesPkg p ∧ (x.2.architecture = d ∨ x.2.architecture = "all")) ∧
    make_search d "~nfoo~aany" =
      Except.ok (SearchCond.matcher (Matcher.MatchName (Contains "foo"))) ∧
    make_search d "~aamd64" =
      Except.ok (SearchCond.matcher (Matcher.MatchArch ["amd64"])) ∧
    (∀ (l : List Match) (x : Match),
      x ∈ (Matcher.MatchArch ["amd64"]).filter l ↔
        x ∈ l ∧ x.2.architecture = "amd64") := by
  refine ⟨?_, ?_, ?_, ?_, ?_, ?_⟩
  · simp [make_search, parseLoop, splitRem, findChar, clauseMatcher,
      MatchArchOfStr, MatchArchDefault, foldAnd1]
  · intro l x
    rw [Matcher.filter, List.mem_filter]
    simp
  · intro p x
    rw [mem_matchArch]
    simp
  · simp [make_search, parseLoop, splitRem, findChar, clauseMatcher,
      MatchArchOfStr, MatchArchDefault, foldAnd1, Contains]
  · simp [make_search, parseLoop, splitRem, findChar, clauseMatcher,
      MatchArchOfStr, MatchArchDefault, foldAnd1]
  · intro l x
    rw [Matcher.filter, List.mem_filter]
    simp

/-- Claim C6: for atomic matchers `a` and `b`, the And-combination's match result
is a subsequence of `a`'s match result: And evaluates the left side, returns
empty when it is empty, and otherwise only narrows it through the right
side's filter. -/
theorem C6_and_sublist (a b : Matcher) (p : Package)
    (ha : a.Atomic = true) (hb : b.Atomic = true) :
    ((Matcher.AndCombiner a b).matchPkg p).Sublist (a.matchPkg p) := by
  rw [and_matchPkg_eq]
  cases b with
  | MatchName f => exact List.filter_sublist _
  | MatchDesc f => exact List.filter_sublist _
  | Installed => exact List.filter_sublist _
  | Nonvirtual => exact List.filter_sublist _
  | MatchArch ar => exact List.filter_sublist _
  | AndCombiner l r => simp [Matcher.Atomic] at hb
  | OrCombiner l r => simp [Matcher.Atomic] at hb

/-- Claim C6 witness: the nonvirtual and installed matchers on the sample
package. -/
theorem C6_witness :
    Matcher.Nonvirtual.Atomic = true ∧ Matcher.Installed.Atomic = true ∧
    ((Matcher.AndCombiner Matcher.Nonvirtual Matcher.Installed).matchPkg sPkg).Sublist
      (Matcher.Nonvirtual.matchPkg sPkg) :=
  ⟨by decide, by decide,
    C6_and_sublist Matcher.Nonvirtual Matcher.Installed sPkg (by decide) (by decide)⟩

/-- Claim C7 counterexample: the claim says an alignment flag on `p` (which has no
aligned form) fails template compilation, but the compiler accepts `%|p`,
silently ignoring the flag. -/
theorem C7_counterexample :
    compileFormat "%|p" = Except.ok "%%(packagename)s" := by
  simp [compileFormat, compileFormatLoop, findChar, fmtDispatch]

/-- Claim C7 amended: template compilation of a format override succeeds exactly
when every placeholder consists of `%`, an optional `|`, and a known field
character (alignment flags on fields without an aligned form are accepted
and ignored); it fails exactly on an unknown field character or on a string
that ends just after `%` or `%|`.  The failure needs no package data, so it
precedes any result computation. -/
theorem C7_compile_ok_iff (s : String) :
    (∃ out, compileFormat s = Except.ok out) ↔ FmtGood s.toList := by
  constructor
  · rintro ⟨out, h⟩
    exact ok_imp_good s.toList.length s.toList (le_refl _) "" out h
  · intro h
    obtain ⟨out, hout⟩ := good_imp_ok h ""
    exact ⟨out, hout⟩

/-- Claim C8 counterexample: for a selected-state code that is none of the five
dpkg selection codes, the claim's "default `'?'`" does not hold: the code
yields a blank.  (`oddSelVer` is installed, so the select character is
computed.) -/
theorem C8_counterexample :
    oddSelVer.pkg.installedVer = some oddSelVer.verStr ∧
    oddSelVer.pkg.selectedState ≠ SELSTATE_INSTALL ∧
    oddSelVer.pkg.selectedState ≠ SELSTATE_DEINSTALL ∧
    oddSelVer.pkg.selectedState ≠ SELSTATE_HOLD ∧
    oddSelVer.pkg.selectedState ≠ SELSTATE_PURGE ∧
    (classify "pkg" oddSelVer).select = ' ' ∧
    (classify "pkg" oddSelVer).select ≠ '?' := by
  refine ⟨by decide, by decide, by decide, by decide, by decide, ?_, ?_⟩
  · decide
  · decide

/-- Claim C8 amended: the select character is computed exactly when the version
is the package's installed version or, with no installed version, its
candidate; it maps install/deinstall/hold/purge to `i`/`d`/`h`/`p` and the
unknown selection code to `'?'`, while any other selected-state code yields
a blank; otherwise it is a blank. -/
theorem C8_select_amended (name : String) (v : Version) :
    (classify name v).select =
      if v.pkg.installedVer = some v.verStr ∨
          (v.pkg.installedVer = none ∧ v.pkg.candidateVer = some v.verStr)
      then selSpec v.pkg.selectedState
      else ' ' := by
  cases hio : v.pkg.installedVer with
  | some s =>
    by_cases hs : s = v.verStr
    · subst hs
      simp [classify, selSpec, hio, SELSTATE_INSTALL, SELSTATE_DEINSTALL,
        SELSTATE_HOLD, SELSTATE_PURGE, SELSTATE_UNKNOWN]
    · simp [classify, selSpec, hio, hs]
  | none =>
    by_cases hc : v.pkg.candidateVer = some v.verStr
    · simp [classify, selSpec, hio, hc, SELSTATE_INSTALL, SELSTATE_DEINSTALL,
        SELSTATE_HOLD, SELSTATE_PURGE, SELSTATE_UNKNOWN]
    · simp [classify, selSpec, hio, hc]

/-- Claim C9: the pattern token consisting solely of `~aany` compiles to the bare
`lambda pkg: []`: the `any` clause is skipped, it suppresses the implicit
default-architecture clause, and the empty clause list yields the
always-empty function rather than a match-everything matcher. -/
theorem C9_any_token_empty (d : String) :
    make_search d "~aany" = Except.ok SearchCond.emptyFn ∧
    ∀ p : Package, SearchCond.emptyFn.apply p = [] := by
  constructor
  · simp [make_search, parseLoop, splitRem, findChar, clauseMatcher,
      MatchArchOfStr, MatchArchDefault, foldAnd1]
  · intro p
    rfl

/-- Claim C10: the installed matcher's filter keeps exactly the pairs whose
displayed name is the owning package's own name and whose version is that
package's installed version; consequently every result of an And-combination
ending in the installed matcher is non-virtual (its displayed name equals
the owning package's name). -/
theorem C10_installed_filter (m : Matcher) (p : Package) (l : List Match)
    (x y : Match)
    (hy : y ∈ (Matcher.AndCombiner m Matcher.Installed).matchPkg p) :
    (x ∈ Matcher.Installed.filter l ↔
      x ∈ l ∧ (x.2.pkg.name = x.1 ∧ x.2.pkg.installedVer = some x.2.verStr)) ∧
    y.2.pkg.name = y.1 := by
  constructor
  · rw [Matcher.filter, List.mem_filter]
    simp
  · rw [and_matchPkg_eq, Matcher.filter] at hy
    have h2 := (List.mem_filter.mp hy).2
    simp only [Bool.and_eq_true, beq_iff_eq] at h2
    exact h2.1

/-- Claim C10 witness: the sample package's own pair under an And with the
installed matcher. -/
theorem C10_witness :
    (("pkg", sVer) ∈
      (Matcher.AndCombiner Matcher.Nonvirtual Matcher.Installed).matchPkg sPkg) ∧
    ((("pkg", sVer) ∈ Matcher.Installed.filter [("pkg", sVer)] ↔
      ("pkg", sVer) ∈ [("pkg", sVer)] ∧
        (sVer.pkg.name = "pkg" ∧ sVer.pkg.installedVer = some sVer.verStr)) ∧
    sVer.pkg.name = "pkg") :=
  ⟨by decide,
    C10_installed_filter Matcher.Nonvirtual sPkg [("pkg", sVer)]
      ("pkg", sVer) ("pkg", sVer) (by decide)⟩

end Tap
